import Mathlib

/-!
Verification of the scope-set component (`tools/slp/ScopeSet.h`).

A `ScopeSet` is modelled as its private field `m_scopes`: `std::set<std::string>`
becomes a strictly sorted `List SLPString`, where `SLPString` is `List Char`
ordered lexicographically (the order used by `std::string::operator<`).
The two-pointer merge algorithms of the header are transcribed clause by clause.

`SLPGetCanonicalString` lives in `SLPStrings` which is not part of the visible
sources, so it is modelled from the spec (case folding plus trimming of
leading/trailing whitespace), as are the wire-codec entry points
(`ScopeSet(const string&)` and `AsEscapedString`, implemented in `ScopeSet.cpp`).
-/

/-- A C++ `std::string`, modelled as its character sequence. -/
abbrev SLPString : Type := List Char

/-- Modelled from the spec: the canonicalizer of `SLPStrings.h` (not under the
visible sources) strips leading and trailing whitespace from a raw scope token.
-/
def trimWhitespace (s : SLPString) : SLPString :=
  ((s.dropWhile Char.isWhitespace).reverse.dropWhile Char.isWhitespace).reverse

/-- Modelled from the spec: `SLPGetCanonicalString` (declared in
`SLPStrings.h`, body not under the visible sources). Per the spec the canonical
form of a token is case-folded with leading/trailing whitespace stripped. -/
def SLPGetCanonicalString (s : SLPString) : SLPString :=
  (trimWhitespace s).map Char.toLower

/-- `std::set<std::string>::insert`: ordered insertion, keeping the sequence
strictly sorted and discarding a duplicate. -/
def setInsert (x : SLPString) : List SLPString → List SLPString
  | [] => [x]
  | y :: ys =>
    if x = y then y :: ys
    else if x < y then x :: y :: ys
    else y :: setInsert x ys

theorem mem_setInsert (t x : SLPString) :
    ∀ l : List SLPString, (t ∈ setInsert x l ↔ t = x ∨ t ∈ l)
  | [] => by simp [setInsert]
  | y :: ys => by
    by_cases hxy : x = y
    · subst hxy
      simp [setInsert]
    · by_cases hlt : x < y
      · simp [setInsert, hxy, hlt]
      · have := mem_setInsert t x ys
        simp [setInsert, hxy, hlt]
        tauto

theorem sorted_setInsert (x : SLPString) :
    ∀ l : List SLPString, l.Sorted (· < ·) → (setInsert x l).Sorted (· < ·)
  | [], _ => by simp [setInsert]
  | y :: ys, h => by
    rw [List.sorted_cons] at h
    by_cases hxy : x = y
    · subst hxy
      simpa [setInsert] using List.sorted_cons.2 h
    · by_cases hlt : x < y
      · rw [setInsert]
        simp only [hxy, if_false, hlt, if_true]
        refine List.sorted_cons.2 ⟨?_, List.sorted_cons.2 h⟩
        intro b hb
        rcases List.mem_cons.1 hb with hb' | hb'
        · exact hb' ▸ hlt
        · exact lt_trans hlt (h.1 b hb')
      · have hyx : y < x := by
          rcases lt_trichotomy x y with h3 | h3 | h3
          · exact absurd h3 hlt
          · exact absurd h3 hxy
          · exact h3
        rw [setInsert]
        simp only [hxy, if_false, hlt, if_false]
        refine List.sorted_cons.2 ⟨?_, sorted_setInsert x ys h.2⟩
        intro b hb
        rcases (mem_setInsert b x ys).1 hb with hb | hb
        · exact hb ▸ hyx
        · exact h.1 b hb

/-- Insert every element of `ts` into the accumulator `acc`
(`std::set` range insertion / a constructor's insertion loop). -/
def insertAll (acc : List SLPString) (ts : List SLPString) : List SLPString :=
  ts.foldl (fun a t => setInsert t a) acc

theorem mem_insertAll (t : SLPString) :
    ∀ (ts acc : List SLPString), (t ∈ insertAll acc ts ↔ t ∈ acc ∨ t ∈ ts)
  | [], acc => by simp [insertAll]
  | s :: ss, acc => by
    have := mem_insertAll t ss (setInsert s acc)
    simp only [insertAll, List.foldl_cons] at this ⊢
    rw [this, mem_setInsert]
    simp
    tauto

theorem sorted_insertAll :
    ∀ (ts acc : List SLPString), acc.Sorted (· < ·) → (insertAll acc ts).Sorted (· < ·)
  | [], _, h => h
  | s :: ss, acc, h =>
    sorted_insertAll ss (setInsert s acc) (sorted_setInsert s acc h)

/-- Two strictly sorted lists with the same members are equal. -/
theorem sorted_mem_eq {l₁ l₂ : List SLPString}
    (h₁ : l₁.Sorted (· < ·)) (h₂ : l₂.Sorted (· < ·))
    (h : ∀ t, t ∈ l₁ ↔ t ∈ l₂) : l₁ = l₂ :=
  List.eq_of_perm_of_sorted ((List.perm_ext_iff_of_nodup h₁.nodup h₂.nodup).2 h) h₁ h₂

/-- `ScopeSet` (`tools/slp/ScopeSet.h`): its private `std::set<std::string>
m_scopes`, carried with the container's strict-ordering invariant. -/
structure ScopeSet where
  m_scopes : List SLPString
  sorted : m_scopes.Sorted (· < ·)

theorem ScopeSet.ext' : ∀ {A B : ScopeSet}, A.m_scopes = B.m_scopes → A = B
  | ⟨_, _⟩, ⟨_, _⟩, rfl => rfl

/-- The default constructor `ScopeSet()`. -/
def ScopeSet.emptySet : ScopeSet := ⟨[], List.sorted_nil⟩

/-- The constructors from a collection of raw strings
(`ScopeSet(const set<string>&)` / `ScopeSet(const vector<string>&)`):
each element is canonicalized via `SLPGetCanonicalString` and inserted. -/
def ScopeSet.ofTokens (ts : List SLPString) : ScopeSet :=
  ⟨insertAll [] (ts.map SLPGetCanonicalString),
   sorted_insertAll _ [] List.sorted_nil⟩

theorem mem_ofTokens (t : SLPString) (ts : List SLPString) :
    t ∈ (ScopeSet.ofTokens ts).m_scopes ↔ ∃ s ∈ ts, SLPGetCanonicalString s = t := by
  simp only [ScopeSet.ofTokens, mem_insertAll, List.mem_map, List.not_mem_nil,
    false_or]

/-- `empty()`: returns `m_scopes.empty()` as an `unsigned int` (1 when empty,
0 otherwise, per the bool-to-integer conversion in the header's signature). -/
def ScopeSet.empty (A : ScopeSet) : Nat :=
  if A.m_scopes.isEmpty then 1 else 0

/-- `size()`: the number of stored scopes. -/
def ScopeSet.size (A : ScopeSet) : Nat := A.m_scopes.length

/-- `Contains(scope)`: `m_scopes.find(scope) != m_scopes.end()`.
The argument is looked up exactly as given. -/
def ScopeSet.Contains (A : ScopeSet) (scope : SLPString) : Bool :=
  A.m_scopes.contains scope

/-- The merge loop of `Intersects`: two iterators over both sorted sequences;
equal heads return true immediately, otherwise the iterator holding the
smaller element advances; false when either sequence is exhausted. -/
def intersectsMerge : List SLPString → List SLPString → Bool
  | x :: xs, y :: ys =>
    if x = y then true
    else if x < y then intersectsMerge xs (y :: ys)
    else intersectsMerge (x :: xs) ys
  | _, _ => false
termination_by l₁ l₂ => l₁.length + l₂.length

/-- `Intersects(other)`. -/
def ScopeSet.Intersects (A B : ScopeSet) : Bool :=
  intersectsMerge A.m_scopes B.m_scopes

/-- The merge loop of `IntersectionCount`: same traversal, counting matches
instead of short-circuiting. -/
def intersectionCountMerge : List SLPString → List SLPString → Nat
  | x :: xs, y :: ys =>
    if x = y then intersectionCountMerge xs ys + 1
    else if x < y then intersectionCountMerge xs (y :: ys)
    else intersectionCountMerge (x :: xs) ys
  | _, _ => 0
termination_by l₁ l₂ => l₁.length + l₂.length

/-- `IntersectionCount(other)`. -/
def ScopeSet.IntersectionCount (A B : ScopeSet) : Nat :=
  intersectionCountMerge A.m_scopes B.m_scopes

/-- `std::set_intersection` on the two sorted ranges. -/
def setIntersectionMerge : List SLPString → List SLPString → List SLPString
  | x :: xs, y :: ys =>
    if x = y then x :: setIntersectionMerge xs ys
    else if x < y then setIntersectionMerge xs (y :: ys)
    else setIntersectionMerge (x :: xs) ys
  | _, _ => []
termination_by l₁ l₂ => l₁.length + l₂.length

/-- `Intersection(other)`: collects the common tokens with `set_intersection`
and returns them through the set-of-strings constructor (`ScopeSet(intersection)`). -/
def ScopeSet.Intersection (A B : ScopeSet) : ScopeSet :=
  ScopeSet.ofTokens (setIntersectionMerge A.m_scopes B.m_scopes)

/-- `std::set_difference` on the two sorted ranges (the tail of the first
range is copied once the second is exhausted). -/
def setDifferenceMerge : List SLPString → List SLPString → List SLPString
  | x :: xs, y :: ys =>
    if x = y then setDifferenceMerge xs ys
    else if x < y then x :: setDifferenceMerge xs (y :: ys)
    else setDifferenceMerge (x :: xs) ys
  | l, _ => l
termination_by l₁ l₂ => l₁.length + l₂.length

/-- `Difference(other)`: `set_difference` then the set-of-strings constructor. -/
def ScopeSet.Difference (A B : ScopeSet) : ScopeSet :=
  ScopeSet.ofTokens (setDifferenceMerge A.m_scopes B.m_scopes)

/-- The merge loop of `DifferenceUpdate`: on a match the element is moved from
`m_scopes` into `difference` (`m_scopes.erase(iter1++)`) and both iterators
advance; otherwise the smaller side advances. Returns the remaining `m_scopes`
paired with the collected `difference`. -/
def differenceUpdateMerge :
    List SLPString → List SLPString → List SLPString × List SLPString
  | x :: xs, y :: ys =>
    if x = y then
      let p := differenceUpdateMerge xs ys
      (p.1, x :: p.2)
    else if x < y then
      let p := differenceUpdateMerge xs (y :: ys)
      (x :: p.1, p.2)
    else differenceUpdateMerge (x :: xs) ys
  | l, _ => (l, [])
termination_by l₁ l₂ => l₁.length + l₂.length

theorem differenceUpdateMerge_fst_sublist :
    ∀ l₁ l₂ : List SLPString, (differenceUpdateMerge l₁ l₂).1.Sublist l₁
  | [], _ => by simp [differenceUpdateMerge]
  | x :: xs, [] => by simp [differenceUpdateMerge]
  | x :: xs, y :: ys => by
    rw [differenceUpdateMerge]
    by_cases hxy : x = y
    · simpa [hxy] using (differenceUpdateMerge_fst_sublist xs ys).cons x
    · by_cases hlt : x < y
      · simpa [hxy, hlt] using (differenceUpdateMerge_fst_sublist xs (y :: ys)).cons₂ x
      · simpa [hxy, hlt] using differenceUpdateMerge_fst_sublist (x :: xs) ys
termination_by l₁ l₂ => l₁.length + l₂.length

theorem differenceUpdateMerge_snd_sublist :
    ∀ l₁ l₂ : List SLPString, (differenceUpdateMerge l₁ l₂).2.Sublist l₁
  | [], _ => by simp [differenceUpdateMerge]
  | x :: xs, [] => by simp [differenceUpdateMerge]
  | x :: xs, y :: ys => by
    rw [differenceUpdateMerge]
    by_cases hxy : x = y
    · simpa [hxy] using (differenceUpdateMerge_snd_sublist xs ys).cons₂ x
    · by_cases hlt : x < y
      · simpa [hxy, hlt] using (differenceUpdateMerge_snd_sublist xs (y :: ys)).cons x
      · simpa [hxy, hlt] using differenceUpdateMerge_snd_sublist (x :: xs) ys
termination_by l₁ l₂ => l₁.length + l₂.length

/-- `DifferenceUpdate(other)`: the header mutates `m_scopes` in place and
returns the removed elements as a new set built by the set-of-strings
constructor; the mutation is modelled by returning the updated receiver
alongside that result. -/
def ScopeSet.DifferenceUpdate (A B : ScopeSet) : ScopeSet × ScopeSet :=
  (⟨(differenceUpdateMerge A.m_scopes B.m_scopes).1,
    List.Pairwise.sublist (differenceUpdateMerge_fst_sublist _ _) A.sorted⟩,
   ScopeSet.ofTokens (differenceUpdateMerge A.m_scopes B.m_scopes).2)

/-- `Update(other)`: `m_scopes.insert(other.m_scopes.begin(), other.m_scopes.end())`. -/
def ScopeSet.Update (A B : ScopeSet) : ScopeSet :=
  ⟨insertAll A.m_scopes B.m_scopes, sorted_insertAll _ _ A.sorted⟩

/-- `operator==`: compares the two underlying `std::set`s. -/
def ScopeSet.eqOp (A B : ScopeSet) : Bool :=
  decide (A.m_scopes = B.m_scopes)

/-- The class invariant maintained by every public construction path: every
stored token is the output of `SLPGetCanonicalString` applied at insertion,
hence a fixed point of canonicalization. -/
def ScopeSet.CanonicalSet (A : ScopeSet) : Prop :=
  ∀ t ∈ A.m_scopes, SLPGetCanonicalString t = t

theorem lt_of_ne_not_lt {x y : SLPString} (hne : ¬ x = y) (hnlt : ¬ x < y) :
    y < x := by
  rcases lt_trichotomy x y with h | h | h
  · exact absurd h hnlt
  · exact absurd h hne
  · exact h

theorem not_mem_of_lt_head {x y : SLPString} {ys : List SLPString}
    (h : (y :: ys).Sorted (· < ·)) (hxy : x < y) : x ∉ y :: ys := by
  intro hx
  rcases List.mem_cons.1 hx with rfl | hx'
  · exact lt_irrefl x hxy
  · exact lt_irrefl x (lt_trans hxy ((List.sorted_cons.1 h).1 x hx'))

theorem mem_cons_of_gt {y t : SLPString} {ys : List SLPString} (hyt : y < t) :
    (t ∈ y :: ys) ↔ t ∈ ys := by
  rw [List.mem_cons]
  constructor
  · rintro (rfl | h)
    · exact absurd hyt (lt_irrefl t)
    · exact h
  · exact Or.inr

/-- Correctness of the `Intersects` merge: on sorted operands it decides
whether the sequences share an element. -/
theorem intersectsMerge_iff :
    ∀ l₁ l₂ : List SLPString, l₁.Sorted (· < ·) → l₂.Sorted (· < ·) →
      (intersectsMerge l₁ l₂ = true ↔ ∃ t, t ∈ l₁ ∧ t ∈ l₂)
  | [], l₂, _, _ => by simp [intersectsMerge]
  | x :: xs, [], _, _ => by simp [intersectsMerge]
  | x :: xs, y :: ys, h₁, h₂ => by
    by_cases hxy : x = y
    · subst hxy
      simp only [intersectsMerge, if_pos rfl, true_iff]
      exact ⟨fun _ => ⟨x, List.mem_cons_self x xs, List.mem_cons_self x ys⟩,
             fun _ => rfl⟩
    · by_cases hlt : x < y
      · have hx : x ∉ y :: ys := not_mem_of_lt_head h₂ hlt
        have IH := intersectsMerge_iff xs (y :: ys) (List.sorted_cons.1 h₁).2 h₂
        rw [intersectsMerge, if_neg hxy, if_pos hlt, IH]
        constructor
        · rintro ⟨t, ht1, ht2⟩
          exact ⟨t, List.mem_cons_of_mem x ht1, ht2⟩
        · rintro ⟨t, ht1, ht2⟩
          rcases List.mem_cons.1 ht1 with rfl | ht1'
          · exact absurd ht2 hx
          · exact ⟨t, ht1', ht2⟩
      · have hyx : y < x := lt_of_ne_not_lt hxy hlt
        have hy : y ∉ x :: xs := not_mem_of_lt_head h₁ hyx
        have IH := intersectsMerge_iff (x :: xs) ys h₁ (List.sorted_cons.1 h₂).2
        rw [intersectsMerge, if_neg hxy, if_neg hlt, IH]
        constructor
        · rintro ⟨t, ht1, ht2⟩
          exact ⟨t, ht1, List.mem_cons_of_mem y ht2⟩
        · rintro ⟨t, ht1, ht2⟩
          rcases List.mem_cons.1 ht2 with rfl | ht2'
          · exact absurd ht1 hy
          · exact ⟨t, ht1, ht2'⟩
termination_by l₁ l₂ => l₁.length + l₂.length

/-- Correctness of the `IntersectionCount` merge: on sorted operands it
counts the elements of the first sequence also present in the second. -/
theorem intersectionCountMerge_eq :
    ∀ l₁ l₂ : List SLPString, l₁.Sorted (· < ·) → l₂.Sorted (· < ·) →
      intersectionCountMerge l₁ l₂ =
        (l₁.filter (fun t => decide (t ∈ l₂))).length
  | [], l₂, _, _ => by simp [intersectionCountMerge]
  | x :: xs, [], _, _ => by simp [intersectionCountMerge]
  | x :: xs, y :: ys, h₁, h₂ => by
    by_cases hxy : x = y
    · subst hxy
      have IH := intersectionCountMerge_eq xs ys
        (List.sorted_cons.1 h₁).2 (List.sorted_cons.1 h₂).2
      have hcongr : ∀ t ∈ xs, decide (t ∈ x :: ys) = decide (t ∈ ys) := by
        intro t ht
        have hxt : x < t := (List.sorted_cons.1 h₁).1 t ht
        rw [decide_eq_decide]
        exact mem_cons_of_gt hxt
      have hfc : List.filter (fun t => decide (t ∈ x :: ys)) xs
          = List.filter (fun t => decide (t ∈ ys)) xs := List.filter_congr hcongr
      have hrhs : (List.filter (fun t => decide (t ∈ x :: ys)) (x :: xs)).length
          = (List.filter (fun t => decide (t ∈ ys)) xs).length + 1 := by
        rw [List.filter_cons, hfc]
        simp
      rw [intersectionCountMerge, if_pos rfl, IH, hrhs]
    · by_cases hlt : x < y
      · have hx : x ∉ y :: ys := not_mem_of_lt_head h₂ hlt
        have hx2 : x ∉ ys := fun h => hx (List.mem_cons_of_mem y h)
        have IH := intersectionCountMerge_eq xs (y :: ys)
          (List.sorted_cons.1 h₁).2 h₂
        rw [intersectionCountMerge, if_neg hxy, if_pos hlt, IH]
        simp [List.filter_cons, hxy, hx2]
      · have hyx : y < x := lt_of_ne_not_lt hxy hlt
        have IH := intersectionCountMerge_eq (x :: xs) ys
          h₁ (List.sorted_cons.1 h₂).2
        have hcongr : ∀ t ∈ x :: xs, decide (t ∈ y :: ys) = decide (t ∈ ys) := by
          intro t ht
          have hyt : y < t := by
            rcases List.mem_cons.1 ht with rfl | ht'
            · exact hyx
            · exact lt_trans hyx ((List.sorted_cons.1 h₁).1 t ht')
          rw [decide_eq_decide]
          exact mem_cons_of_gt hyt
        rw [intersectionCountMerge, if_neg hxy, if_neg hlt, IH,
          List.filter_congr hcongr]
termination_by l₁ l₂ => l₁.length + l₂.length

theorem setIntersectionMerge_sublist :
    ∀ l₁ l₂ : List SLPString, (setIntersectionMerge l₁ l₂).Sublist l₁
  | [], _ => by simp [setIntersectionMerge]
  | x :: xs, [] => by simp [setIntersectionMerge]
  | x :: xs, y :: ys => by
    rw [setIntersectionMerge]
    by_cases hxy : x = y
    · simpa [hxy] using (setIntersectionMerge_sublist xs ys).cons₂ x
    · by_cases hlt : x < y
      · simpa [hxy, hlt] using (setIntersectionMerge_sublist xs (y :: ys)).cons x
      · simpa [hxy, hlt] using setIntersectionMerge_sublist (x :: xs) ys
termination_by l₁ l₂ => l₁.length + l₂.length

/-- Correctness of `set_intersection` on sorted ranges: the output holds
exactly the common elements. -/
theorem mem_setIntersectionMerge :
    ∀ l₁ l₂ : List SLPString, l₁.Sorted (· < ·) → l₂.Sorted (· < ·) →
      ∀ t, (t ∈ setIntersectionMerge l₁ l₂ ↔ t ∈ l₁ ∧ t ∈ l₂)
  | [], l₂, _, _ => by simp [setIntersectionMerge]
  | x :: xs, [], _, _ => by simp [setIntersectionMerge]
  | x :: xs, y :: ys, h₁, h₂ => by
    intro t
    by_cases hxy : x = y
    · subst hxy
      have IH := mem_setIntersectionMerge xs ys
        (List.sorted_cons.1 h₁).2 (List.sorted_cons.1 h₂).2 t
      rw [setIntersectionMerge, if_pos rfl, List.mem_cons, IH]
      by_cases hxt : t = x
      · subst hxt
        simp
      · have h1 : (t ∈ x :: xs) ↔ t ∈ xs := by
          rw [List.mem_cons]
          exact ⟨fun h => h.resolve_left hxt, Or.inr⟩
        have h2 : (t ∈ x :: ys) ↔ t ∈ ys := by
          rw [List.mem_cons]
          exact ⟨fun h => h.resolve_left hxt, Or.inr⟩
        rw [h1, h2]
        simp [hxt]
    · by_cases hlt : x < y
      · have hx : x ∉ y :: ys := not_mem_of_lt_head h₂ hlt
        have IH := mem_setIntersectionMerge xs (y :: ys)
          (List.sorted_cons.1 h₁).2 h₂ t
        rw [setIntersectionMerge, if_neg hxy, if_pos hlt, IH]
        constructor
        · rintro ⟨ht1, ht2⟩
          exact ⟨List.mem_cons_of_mem x ht1, ht2⟩
        · rintro ⟨ht1, ht2⟩
          rcases List.mem_cons.1 ht1 with rfl | ht1'
          · exact absurd ht2 hx
          · exact ⟨ht1', ht2⟩
      · have hyx : y < x := lt_of_ne_not_lt hxy hlt
        have hy : y ∉ x :: xs := not_mem_of_lt_head h₁ hyx
        have IH := mem_setIntersectionMerge (x :: xs) ys
          h₁ (List.sorted_cons.1 h₂).2 t
        rw [setIntersectionMerge, if_neg hxy, if_neg hlt, IH]
        constructor
        · rintro ⟨ht1, ht2⟩
          exact ⟨ht1, List.mem_cons_of_mem y ht2⟩
        · rintro ⟨ht1, ht2⟩
          rcases List.mem_cons.1 ht2 with rfl | ht2'
          · exact absurd ht1 hy
          · exact ⟨ht1, ht2'⟩
termination_by l₁ l₂ => l₁.length + l₂.length

/-- The intersection merge produces exactly as many elements as the counting
merge counts (both loops take identical branches). -/
theorem setIntersectionMerge_length :
    ∀ l₁ l₂ : List SLPString,
      (setIntersectionMerge l₁ l₂).length = intersectionCountMerge l₁ l₂
  | [], _ => by simp [setIntersectionMerge, intersectionCountMerge]
  | x :: xs, [] => by simp [setIntersectionMerge, intersectionCountMerge]
  | x :: xs, y :: ys => by
    rw [setIntersectionMerge, intersectionCountMerge]
    by_cases hxy : x = y
    · simpa [hxy] using setIntersectionMerge_length xs ys
    · by_cases hlt : x < y
      · simpa [hxy, hlt] using setIntersectionMerge_length xs (y :: ys)
      · simpa [hxy, hlt] using setIntersectionMerge_length (x :: xs) ys
termination_by l₁ l₂ => l₁.length + l₂.length

theorem setDifferenceMerge_sublist :
    ∀ l₁ l₂ : List SLPString, (setDifferenceMerge l₁ l₂).Sublist l₁
  | [], _ => by simp [setDifferenceMerge]
  | x :: xs, [] => by simp [setDifferenceMerge]
  | x :: xs, y :: ys => by
    rw [setDifferenceMerge]
    by_cases hxy : x = y
    · simpa [hxy] using (setDifferenceMerge_sublist xs ys).cons x
    · by_cases hlt : x < y
      · simpa [hxy, hlt] using (setDifferenceMerge_sublist xs (y :: ys)).cons₂ x
      · simpa [hxy, hlt] using setDifferenceMerge_sublist (x :: xs) ys
termination_by l₁ l₂ => l₁.length + l₂.length

/-- Correctness of `set_difference` on sorted ranges: the output holds
exactly the elements of the first range absent from the second. -/
theorem mem_setDifferenceMerge :
    ∀ l₁ l₂ : List SLPString, l₁.Sorted (· < ·) → l₂.Sorted (· < ·) →
      ∀ t, (t ∈ setDifferenceMerge l₁ l₂ ↔ t ∈ l₁ ∧ t ∉ l₂)
  | [], l₂, _, _ => by simp [setDifferenceMerge]
  | x :: xs, [], _, _ => by simp [setDifferenceMerge]
  | x :: xs, y :: ys, h₁, h₂ => by
    intro t
    by_cases hxy : x = y
    · subst hxy
      have IH := mem_setDifferenceMerge xs ys
        (List.sorted_cons.1 h₁).2 (List.sorted_cons.1 h₂).2 t
      rw [setDifferenceMerge, if_pos rfl, IH]
      by_cases hxt : t = x
      · subst hxt
        have : t ∉ xs := fun h => lt_irrefl t ((List.sorted_cons.1 h₁).1 t h)
        simp [this]
      · have h1 : (t ∈ x :: xs) ↔ t ∈ xs := by
          rw [List.mem_cons]
          exact ⟨fun h => h.resolve_left hxt, Or.inr⟩
        have h2 : (t ∈ x :: ys) ↔ t ∈ ys := by
          rw [List.mem_cons]
          exact ⟨fun h => h.resolve_left hxt, Or.inr⟩
        rw [h1, h2]
    · by_cases hlt : x < y
      · have hx : x ∉ y :: ys := not_mem_of_lt_head h₂ hlt
        have IH := mem_setDifferenceMerge xs (y :: ys)
          (List.sorted_cons.1 h₁).2 h₂ t
        rw [setDifferenceMerge, if_neg hxy, if_pos hlt, List.mem_cons, IH,
          List.mem_cons]
        by_cases hxt : t = x
        · subst hxt
          have hx2 : t ∉ ys := fun h => hx (List.mem_cons_of_mem y h)
          simp [hxy, hx2]
        · simp [hxt]
      · have hyx : y < x := lt_of_ne_not_lt hxy hlt
        have IH := mem_setDifferenceMerge (x :: xs) ys
          h₁ (List.sorted_cons.1 h₂).2 t
        rw [setDifferenceMerge, if_neg hxy, if_neg hlt, IH]
        by_cases hmem : t ∈ x :: xs
        · have hyt : y < t := by
            rcases List.mem_cons.1 hmem with rfl | ht'
            · exact hyx
            · exact lt_trans hyx ((List.sorted_cons.1 h₁).1 t ht')
          rw [mem_cons_of_gt hyt]
        · simp [hmem]
termination_by l₁ l₂ => l₁.length + l₂.length

/-- The in-place merge of `DifferenceUpdate` leaves in `m_scopes` exactly what
`set_difference` would produce: erasing via `m_scopes.erase(iter1++)` does not
perturb the iteration (both loops take identical branches). -/
theorem differenceUpdateMerge_fst_eq :
    ∀ l₁ l₂ : List SLPString,
      (differenceUpdateMerge l₁ l₂).1 = setDifferenceMerge l₁ l₂
  | [], _ => by simp [differenceUpdateMerge, setDifferenceMerge]
  | x :: xs, [] => by simp [differenceUpdateMerge, setDifferenceMerge]
  | x :: xs, y :: ys => by
    rw [differenceUpdateMerge, setDifferenceMerge]
    by_cases hxy : x = y
    · simpa [hxy] using differenceUpdateMerge_fst_eq xs ys
    · by_cases hlt : x < y
      · simpa [hxy, hlt] using differenceUpdateMerge_fst_eq xs (y :: ys)
      · simpa [hxy, hlt] using differenceUpdateMerge_fst_eq (x :: xs) ys
termination_by l₁ l₂ => l₁.length + l₂.length

/-- The elements collected by `DifferenceUpdate` are exactly the intersection
merge's output. -/
theorem differenceUpdateMerge_snd_eq :
    ∀ l₁ l₂ : List SLPString,
      (differenceUpdateMerge l₁ l₂).2 = setIntersectionMerge l₁ l₂
  | [], _ => by simp [differenceUpdateMerge, setIntersectionMerge]
  | x :: xs, [] => by simp [differenceUpdateMerge, setIntersectionMerge]
  | x :: xs, y :: ys => by
    rw [differenceUpdateMerge, setIntersectionMerge]
    by_cases hxy : x = y
    · simpa [hxy] using differenceUpdateMerge_snd_eq xs ys
    · by_cases hlt : x < y
      · simpa [hxy, hlt] using differenceUpdateMerge_snd_eq xs (y :: ys)
      · simpa [hxy, hlt] using differenceUpdateMerge_snd_eq (x :: xs) ys
termination_by l₁ l₂ => l₁.length + l₂.length

/-- Rebuilding a set from an already sorted list of fixed points of
canonicalization reproduces that list (the set-of-strings constructor is the
identity on canonical, sorted input). -/
theorem ofTokens_of_canonical {l : List SLPString} (hs : l.Sorted (· < ·))
    (hc : ∀ t ∈ l, SLPGetCanonicalString t = t) :
    (ScopeSet.ofTokens l).m_scopes = l := by
  refine sorted_mem_eq (ScopeSet.ofTokens l).sorted hs (fun t => ?_)
  rw [mem_ofTokens]
  constructor
  · rintro ⟨s, hsl, rfl⟩
    rw [hc s hsl]
    exact hsl
  · intro ht
    exact ⟨t, ht, hc t ht⟩

/-- The error kinds of the spec's error-handling design (§7). -/
inductive SLPError where
  | InvalidScopeToken : SLPError
  | MalformedEscapeSequence : SLPError
  deriving DecidableEq

/-- Modelled from the spec: the escaping step of `Encode`/`AsEscapedString` —
any literal occurrence of the delimiter or of the escape character inside a
token is preceded by a backslash. -/
def escapeToken : SLPString → SLPString
  | [] => []
  | c :: cs =>
    if c = ',' ∨ c = '\\' then '\\' :: c :: escapeToken cs
    else c :: escapeToken cs

/-- Joining tokens with the comma delimiter (`ola::StringJoin` style). -/
def joinScopes : List SLPString → SLPString
  | [] => []
  | [t] => t
  | t :: t' :: ts => t ++ ',' :: joinScopes (t' :: ts)

/-- Modelled from the spec: `AsEscapedString` (implemented in `ScopeSet.cpp`,
not under the visible sources): each canonical token is escaped and the
results are joined with commas. -/
def ScopeSet.AsEscapedString (A : ScopeSet) : SLPString :=
  joinScopes (A.m_scopes.map escapeToken)

/-- Modelled from the spec: `Decode`'s splitting step — split on commas,
except that a character preceded by the escape character stays inside the
current token (so an escaped comma is not a separator). -/
def splitEscaped : SLPString → List SLPString
  | [] => [[]]
  | [c] => if c = ',' then [[], []] else [[c]]
  | c :: c' :: rest =>
    if c = ',' then [] :: splitEscaped (c' :: rest)
    else if c = '\\' then
      match splitEscaped rest with
      | t :: ts => (c :: c' :: t) :: ts
      | [] => [[c, c']]
    else
      match splitEscaped (c' :: rest) with
      | t :: ts => (c :: t) :: ts
      | [] => [[c]]

/-- The splitting used by `Decode`; an empty wire string holds no tokens. -/
def splitScopes (s : SLPString) : List SLPString :=
  if s = [] then [] else splitEscaped s

/-- Modelled from the spec: `Decode`'s unescaping step; a trailing escape
character with no following character is a malformed escape sequence. -/
def unescapeToken : SLPString → Except SLPError SLPString
  | [] => .ok []
  | [c] =>
    if c = '\\' then .error .MalformedEscapeSequence else .ok [c]
  | c :: c' :: rest =>
    if c = '\\' then (unescapeToken rest).map (fun u => c' :: u)
    else (unescapeToken (c' :: rest)).map (fun u => c :: u)

/-- Modelled from the spec: per-token pipeline of `Decode` — unescape,
canonicalize, reject an empty canonical result; the first failure aborts. -/
def decodeParts : List SLPString → Except SLPError (List SLPString)
  | [] => .ok []
  | p :: ps =>
    match unescapeToken p with
    | .error e => .error e
    | .ok u =>
      if SLPGetCanonicalString u = [] then .error .InvalidScopeToken
      else
        match decodeParts ps with
        | .error e => .error e
        | .ok rest => .ok (SLPGetCanonicalString u :: rest)

/-- Modelled from the spec: the comma-separated-string constructor
`ScopeSet(const string&)` (implemented in `ScopeSet.cpp`, not under the
visible sources), i.e. the wire codec's `Decode`: split on unescaped commas,
unescape and canonicalize each token, fail on an invalid one, insert the
rest. -/
def ScopeSet.decode (s : SLPString) : Except SLPError ScopeSet :=
  match decodeParts (splitScopes s) with
  | .error e => .error e
  | .ok ts => .ok ⟨insertAll [] ts, sorted_insertAll ts [] List.sorted_nil⟩

/-- Modelled from the spec: construction from a collection of raw tokens with
the Canonicalizer's validation applied at the entry point (§4.1, §7) — if any
token canonicalizes to the empty string the whole construction fails with
`InvalidScopeToken`, otherwise the set is built as by the visible
constructors. -/
def ScopeSet.ofTokensChecked (ts : List SLPString) : Except SLPError ScopeSet :=
  if ∀ t ∈ ts, ¬ SLPGetCanonicalString t = [] then .ok (ScopeSet.ofTokens ts)
  else .error .InvalidScopeToken

/-- Shape of `escapeToken` outputs: a backslash always starts a two-character
escape sequence and no unescaped comma or backslash occurs. -/
inductive WellEscaped : SLPString → Prop where
  | nil : WellEscaped []
  | esc (c : Char) {rest : SLPString} :
      WellEscaped rest → WellEscaped ('\\' :: c :: rest)
  | plain {c : Char} {rest : SLPString} :
      ¬ c = ',' → ¬ c = '\\' → WellEscaped rest → WellEscaped (c :: rest)

theorem wellEscaped_escapeToken : ∀ t : SLPString, WellEscaped (escapeToken t)
  | [] => WellEscaped.nil
  | c :: cs => by
    rw [escapeToken]
    by_cases h : c = ',' ∨ c = '\\'
    · rw [if_pos h]
      exact WellEscaped.esc c (wellEscaped_escapeToken cs)
    · rw [if_neg h]
      push_neg at h
      exact WellEscaped.plain h.1 h.2 (wellEscaped_escapeToken cs)

theorem splitEscaped_ne_nil : ∀ s : SLPString, splitEscaped s ≠ []
  | [] => by simp [splitEscaped]
  | [c] => by
    by_cases hc : c = ',' <;> simp [splitEscaped, hc]
  | c :: c' :: rest => by
    by_cases hc : c = ','
    · simp [splitEscaped, hc]
    · by_cases hb : c = '\\'
      · rw [splitEscaped, if_neg hc, if_pos hb]
        cases splitEscaped rest <;> simp
      · rw [splitEscaped, if_neg hc, if_neg hb]
        cases splitEscaped (c' :: rest) <;> simp

theorem escapeToken_ne_nil {t : SLPString} (h : t ≠ []) : escapeToken t ≠ [] := by
  cases t with
  | nil => exact absurd rfl h
  | cons c cs =>
    rw [escapeToken]
    by_cases hc : c = ',' ∨ c = '\\' <;> simp [hc]

theorem joinScopes_ne_nil :
    ∀ ws : List SLPString, ws ≠ [] → (∀ w ∈ ws, w ≠ []) → joinScopes ws ≠ []
  | [], h, _ => absurd rfl h
  | [w], _, h => by
    rw [joinScopes]
    exact h w (by simp)
  | w :: w' :: ws', _, _ => by
    rw [joinScopes]
    simp

/-- Splitting distributes over a well-escaped prefix: no separator is found
inside it, so it is prepended to the first token of the remainder's split. -/
theorem splitEscaped_append {w : SLPString} (hw : WellEscaped w) :
    ∀ s : SLPString, splitEscaped (w ++ s) = (splitEscaped s).modifyHead (w ++ ·) := by
  induction hw with
  | nil =>
    intro s
    cases h : splitEscaped s with
    | nil => exact absurd h (splitEscaped_ne_nil s)
    | cons t ts => simp [List.modifyHead, h]
  | @esc c rest hrest IH =>
    intro s
    simp only [List.cons_append]
    have hL : splitEscaped ('\\' :: c :: (rest ++ s)) =
        match splitEscaped (rest ++ s) with
        | t :: ts => ('\\' :: c :: t) :: ts
        | [] => [['\\', c]] := by
      rw [splitEscaped, if_neg (by decide), if_pos rfl]
    rw [hL, IH s]
    cases h : splitEscaped s with
    | nil => exact absurd h (splitEscaped_ne_nil s)
    | cons t ts => simp [List.modifyHead]
  | @plain c rest hc hb hrest IH =>
    intro s
    simp only [List.cons_append]
    have hL : splitEscaped (c :: (rest ++ s)) =
        match splitEscaped (rest ++ s) with
        | t :: ts => (c :: t) :: ts
        | [] => [[c]] := by
      cases hrs : rest ++ s with
      | nil => simp [splitEscaped, hc]
      | cons d ds => rw [splitEscaped, if_neg hc, if_neg hb]
    rw [hL, IH s]
    cases h : splitEscaped s with
    | nil => exact absurd h (splitEscaped_ne_nil s)
    | cons t ts => simp [List.modifyHead]

/-- A single well-escaped token splits to itself. -/
theorem splitEscaped_single {w : SLPString} (hw : WellEscaped w) :
    splitEscaped w = [w] := by
  have h := splitEscaped_append hw []
  simpa [splitEscaped, List.modifyHead] using h

/-- Splitting inverts joining on well-escaped tokens. -/
theorem splitEscaped_joinScopes :
    ∀ ws : List SLPString, (∀ w ∈ ws, WellEscaped w) → ws ≠ [] →
      splitEscaped (joinScopes ws) = ws
  | [], _, h => absurd rfl h
  | [w], h, _ => by
    rw [joinScopes]
    exact splitEscaped_single (h w (by simp))
  | w :: w' :: ws', h, _ => by
    rw [joinScopes, splitEscaped_append (h w (by simp)) (',' :: joinScopes (w' :: ws'))]
    have hcomma : splitEscaped (',' :: joinScopes (w' :: ws')) =
        [] :: splitEscaped (joinScopes (w' :: ws')) := by
      cases hj : joinScopes (w' :: ws') with
      | nil => decide
      | cons d ds => rw [splitEscaped, if_pos rfl]
    rw [hcomma,
      splitEscaped_joinScopes (w' :: ws') (fun x hx => h x (List.mem_cons_of_mem w hx)) (by simp)]
    simp [List.modifyHead]

/-- Unescaping inverts escaping. -/
theorem unescapeToken_escapeToken :
    ∀ t : SLPString, unescapeToken (escapeToken t) = Except.ok t
  | [] => rfl
  | c :: cs => by
    rw [escapeToken]
    by_cases h : c = ',' ∨ c = '\\'
    · rw [if_pos h]
      have hL : unescapeToken ('\\' :: c :: escapeToken cs) =
          (unescapeToken (escapeToken cs)).map (fun u => c :: u) := by
        rw [unescapeToken, if_pos rfl]
      rw [hL, unescapeToken_escapeToken cs]
      rfl
    · rw [if_neg h]
      push_neg at h
      cases hE : escapeToken cs with
      | nil =>
        have := unescapeToken_escapeToken cs
        rw [hE] at this
        have hcs : cs = [] := by
          have : (Except.ok [] : Except SLPError SLPString) = Except.ok cs := this
          simpa using this.symm
        subst hcs
        rw [unescapeToken, if_neg h.2]
      | cons d ds =>
        have hL : unescapeToken (c :: d :: ds) =
            (unescapeToken (d :: ds)).map (fun u => c :: u) := by
          rw [unescapeToken, if_neg h.2]
        rw [hL, ← hE, unescapeToken_escapeToken cs]
        rfl

/-- Rebuilding from an already-sorted token list is the identity. -/
theorem insertAll_sorted_id {l : List SLPString} (h : l.Sorted (· < ·)) :
    insertAll [] l = l :=
  sorted_mem_eq (sorted_insertAll l [] List.sorted_nil) h
    (fun t => by rw [mem_insertAll]; simp)

/-- Decoding the escaped forms of canonical non-empty tokens recovers them. -/
theorem decodeParts_escaped :
    ∀ ts : List SLPString, (∀ t ∈ ts, SLPGetCanonicalString t = t ∧ t ≠ []) →
      decodeParts (ts.map escapeToken) = Except.ok ts
  | [], _ => rfl
  | t :: ts', h => by
    have ht := h t (List.mem_cons_self t ts')
    rw [List.map_cons]
    simp [decodeParts, unescapeToken_escapeToken t, ht.1, ht.2,
      decodeParts_escaped ts' (fun x hx => h x (List.mem_cons_of_mem t hx))]

/-- A valid scope set per the spec's data model (§3): every stored token is
canonical and non-empty. -/
def ScopeSet.Valid (S : ScopeSet) : Prop :=
  ∀ t ∈ S.m_scopes, SLPGetCanonicalString t = t ∧ t ≠ []

/-- The wire round-trip: decoding the escaped string of a valid set yields
the set back. -/
theorem decode_AsEscapedString {S : ScopeSet} (h : S.Valid) :
    ScopeSet.decode S.AsEscapedString = Except.ok S := by
  have hparts : decodeParts (splitScopes S.AsEscapedString) =
      Except.ok S.m_scopes := by
    cases hS : S.m_scopes with
    | nil => simp [ScopeSet.AsEscapedString, hS, joinScopes, splitScopes, decodeParts]
    | cons t ts =>
      have hmap : ∀ w ∈ (t :: ts).map escapeToken, WellEscaped w := by
        intro w hw
        rcases List.mem_map.1 hw with ⟨x, _, rfl⟩
        exact wellEscaped_escapeToken x
      have hje : joinScopes ((t :: ts).map escapeToken) ≠ [] := by
        apply joinScopes_ne_nil
        · simp
        · intro w hw
          rcases List.mem_map.1 hw with ⟨x, hx, rfl⟩
          exact escapeToken_ne_nil (h x (by rw [hS]; exact hx)).2
      have hAs : S.AsEscapedString = joinScopes ((t :: ts).map escapeToken) := by
        rw [ScopeSet.AsEscapedString, hS]
      rw [hAs, splitScopes, if_neg hje,
        splitEscaped_joinScopes ((t :: ts).map escapeToken) hmap (by simp)]
      exact decodeParts_escaped (t :: ts) (fun x hx => h x (by rw [hS]; exact hx))
  simp only [ScopeSet.decode, hparts]
  exact congrArg Except.ok (ScopeSet.ext' (insertAll_sorted_id S.sorted))

/-- `unescapeToken` either succeeds or reports a malformed escape sequence. -/
theorem unescapeToken_ok_or :
    ∀ p : SLPString, (∃ u, unescapeToken p = Except.ok u) ∨
      unescapeToken p = Except.error SLPError.MalformedEscapeSequence
  | [] => Or.inl ⟨[], rfl⟩
  | [c] => by
    by_cases hb : c = '\\'
    · right
      rw [unescapeToken, if_pos hb]
    · left
      exact ⟨[c], by rw [unescapeToken, if_neg hb]⟩
  | c :: c' :: rest => by
    by_cases hb : c = '\\'
    · rcases unescapeToken_ok_or rest with ⟨u, hu⟩ | hu
      · left
        exact ⟨c' :: u, by rw [unescapeToken, if_pos hb, hu]; rfl⟩
      · right
        rw [unescapeToken, if_pos hb, hu]
        rfl
    · rcases unescapeToken_ok_or (c' :: rest) with ⟨u, hu⟩ | hu
      · left
        exact ⟨c :: u, by rw [unescapeToken, if_neg hb, hu]; rfl⟩
      · right
        rw [unescapeToken, if_neg hb, hu]
        rfl

/-- If every token unescapes but some token canonicalizes to empty, the
decode pipeline fails with `InvalidScopeToken`. -/
theorem decodeParts_invalid :
    ∀ ps : List SLPString,
      (∀ p ∈ ps, unescapeToken p ≠ Except.error SLPError.MalformedEscapeSequence) →
      (∃ p ∈ ps, (unescapeToken p).map SLPGetCanonicalString = Except.ok []) →
      decodeParts ps = Except.error SLPError.InvalidScopeToken
  | [], _, hbad => by simp at hbad
  | p :: ps', hok, hbad => by
    obtain ⟨u, hu⟩ : ∃ u, unescapeToken p = Except.ok u :=
      (unescapeToken_ok_or p).resolve_right (hok p (List.mem_cons_self p ps'))
    rw [decodeParts, hu]
    show (if SLPGetCanonicalString u = [] then Except.error SLPError.InvalidScopeToken
          else match decodeParts ps' with
            | .error e => .error e
            | .ok rest => .ok (SLPGetCanonicalString u :: rest)) = _
    by_cases hc : SLPGetCanonicalString u = []
    · rw [if_pos hc]
    · have hbad' : ∃ q ∈ ps',
          (unescapeToken q).map SLPGetCanonicalString = Except.ok [] := by
        rcases hbad with ⟨q, hq, hqbad⟩
        rcases List.mem_cons.1 hq with rfl | hq'
        · rw [hu] at hqbad
          simp [Except.map] at hqbad
          exact absurd hqbad hc
        · exact ⟨q, hq', hqbad⟩
      rw [if_neg hc,
        decodeParts_invalid ps' (fun q hq => hok q (List.mem_cons_of_mem p hq)) hbad']

deriving instance DecidableEq for Except

instance (A : ScopeSet) : Decidable A.CanonicalSet :=
  inferInstanceAs (Decidable (∀ t ∈ A.m_scopes, SLPGetCanonicalString t = t))

instance (S : ScopeSet) : Decidable S.Valid :=
  inferInstanceAs (Decidable (∀ t ∈ S.m_scopes, SLPGetCanonicalString t = t ∧ t ≠ []))

theorem intersectsMerge_nil_right (l : List SLPString) :
    intersectsMerge l [] = false := by
  cases l <;> simp [intersectsMerge]

theorem mem_ofTokens_of_canonical {l : List SLPString}
    (hc : ∀ t ∈ l, SLPGetCanonicalString t = t) (t : SLPString) :
    t ∈ (ScopeSet.ofTokens l).m_scopes ↔ t ∈ l := by
  rw [mem_ofTokens]
  constructor
  · rintro ⟨s, hs, rfl⟩
    rw [hc s hs]
    exact hs
  · intro ht
    exact ⟨t, ht, hc t ht⟩

/-- C1: `Intersects` decides whether the two sets share a (canonical) token;
it is commutative, and intersecting with the empty set yields false. -/
theorem intersects_correct_comm_empty (A B : ScopeSet) :
    (A.Intersects B = true ↔ ∃ t, t ∈ A.m_scopes ∧ t ∈ B.m_scopes) ∧
    A.Intersects B = B.Intersects A ∧
    A.Intersects ScopeSet.emptySet = false := by
  have h1 := intersectsMerge_iff A.m_scopes B.m_scopes A.sorted B.sorted
  have h2 := intersectsMerge_iff B.m_scopes A.m_scopes B.sorted A.sorted
  refine ⟨h1, ?_, intersectsMerge_nil_right A.m_scopes⟩
  rw [Bool.eq_iff_iff, ScopeSet.Intersects, ScopeSet.Intersects, h1, h2]
  exact ⟨fun ⟨t, u, v⟩ => ⟨t, v, u⟩, fun ⟨t, u, v⟩ => ⟨t, v, u⟩⟩

/-- C2 (counterexample): `Contains` looks up its argument without
canonicalizing it, so a set holding the canonical token "lighting" reports
false for the raw token "Lighting" even though that token's canonical form
is a member. -/
theorem contains_skips_canonicalization_counterexample :
    (ScopeSet.ofTokens ["lighting".data]).Contains ("Lighting".data) = false ∧
    SLPGetCanonicalString ("Lighting".data) ∈
      (ScopeSet.ofTokens ["lighting".data]).m_scopes := by
  constructor
  · decide
  · decide

/-- C2 (amended): `Contains(token)` returns true iff `token` exactly as given
(no case folding, no trimming) is a member of the set. -/
theorem contains_iff_raw_member (A : ScopeSet) (t : SLPString) :
    A.Contains t = true ↔ t ∈ A.m_scopes := by
  simp [ScopeSet.Contains]

/-- C6: `IntersectionCount` returns the cardinality of the intersection (the
number of tokens of `A` also present in `B`), and on identical operands it
returns the set's size. -/
theorem intersectionCount_card_self (A B : ScopeSet) :
    A.IntersectionCount B =
      (A.m_scopes.filter (fun t => decide (t ∈ B.m_scopes))).length ∧
    A.IntersectionCount A = A.size := by
  constructor
  · exact intersectionCountMerge_eq A.m_scopes B.m_scopes A.sorted B.sorted
  · have h := intersectionCountMerge_eq A.m_scopes A.m_scopes A.sorted A.sorted
    have hself : A.m_scopes.filter (fun t => decide (t ∈ A.m_scopes)) = A.m_scopes :=
      List.filter_eq_self.2 (fun a ha => by simpa using ha)
    rw [ScopeSet.IntersectionCount, h, hself, ScopeSet.size]

/-- C7: `operator==` holds exactly when the two sets have the same
canonical-token membership (insertion order cannot matter, the storage is
ordered); in particular the sets built from "Lighting" and " lighting "
are equal because construction canonicalizes. -/
theorem equality_iff_same_membership (A B : ScopeSet) :
    (A.eqOp B = true ↔ ∀ t, t ∈ A.m_scopes ↔ t ∈ B.m_scopes) ∧
    (ScopeSet.ofTokens ["Lighting".data]).eqOp
      (ScopeSet.ofTokens [" lighting ".data]) = true := by
  constructor
  · rw [ScopeSet.eqOp, decide_eq_true_eq]
    constructor
    · intro h t
      rw [h]
    · intro h
      exact sorted_mem_eq A.sorted B.sorted h
  · decide

/-- C9: `Update` makes the receiver's membership the union of both operands'
memberships, keeps the storage duplicate-free and ordered, and the final
membership of a sequence of updates does not depend on their order. -/
theorem update_union_order_independent (A B C : ScopeSet) :
    (∀ t, t ∈ (A.Update B).m_scopes ↔ t ∈ A.m_scopes ∨ t ∈ B.m_scopes) ∧
    (A.Update B).m_scopes.Nodup ∧
    (A.Update B).m_scopes.Sorted (· < ·) ∧
    (A.Update B).Update C = (A.Update C).Update B := by
  have hmem : ∀ (X Y : ScopeSet) (t : SLPString),
      t ∈ (X.Update Y).m_scopes ↔ t ∈ X.m_scopes ∨ t ∈ Y.m_scopes := by
    intro X Y t
    exact mem_insertAll t Y.m_scopes X.m_scopes
  refine ⟨hmem A B, (A.Update B).sorted.nodup, (A.Update B).sorted, ?_⟩
  apply ScopeSet.ext'
  apply sorted_mem_eq ((A.Update B).Update C).sorted ((A.Update C).Update B).sorted
  intro t
  rw [hmem _ _ t, hmem _ _ t, hmem _ _ t, hmem _ _ t]
  tauto

theorem differenceUpdate_fst_mem (A B : ScopeSet) (t : SLPString) :
    t ∈ (A.DifferenceUpdate B).1.m_scopes ↔
      t ∈ A.m_scopes ∧ t ∉ B.m_scopes := by
  show t ∈ (differenceUpdateMerge A.m_scopes B.m_scopes).1 ↔ _
  rw [differenceUpdateMerge_fst_eq]
  exact mem_setDifferenceMerge A.m_scopes B.m_scopes A.sorted B.sorted t

theorem differenceUpdate_snd_mem (A B : ScopeSet) (hA : A.CanonicalSet)
    (t : SLPString) :
    t ∈ (A.DifferenceUpdate B).2.m_scopes ↔
      t ∈ A.m_scopes ∧ t ∈ B.m_scopes := by
  have hc : ∀ x ∈ (differenceUpdateMerge A.m_scopes B.m_scopes).2,
      SLPGetCanonicalString x = x :=
    fun x hx =>
      hA x ((differenceUpdateMerge_snd_sublist A.m_scopes B.m_scopes).subset hx)
  show t ∈ (ScopeSet.ofTokens
      (differenceUpdateMerge A.m_scopes B.m_scopes).2).m_scopes ↔ _
  rw [mem_ofTokens_of_canonical hc t, differenceUpdateMerge_snd_eq]
  exact mem_setIntersectionMerge A.m_scopes B.m_scopes A.sorted B.sorted t

/-- C4: `DifferenceUpdate` leaves in the receiver exactly the tokens not in
`other`, returns exactly the removed (common) tokens, the erase-while-merging
loop skipping nothing, and behaves as specified on the concrete example
A = {x,y,z}, B = {y}. -/
theorem differenceUpdate_removes_and_returns (A B : ScopeSet)
    (hA : A.CanonicalSet) :
    (∀ t, t ∈ (A.DifferenceUpdate B).1.m_scopes ↔
      t ∈ A.m_scopes ∧ t ∉ B.m_scopes) ∧
    (∀ t, t ∈ (A.DifferenceUpdate B).2.m_scopes ↔
      t ∈ A.m_scopes ∧ t ∈ B.m_scopes) ∧
    ((ScopeSet.ofTokens ["x".data, "y".data, "z".data]).DifferenceUpdate
        (ScopeSet.ofTokens ["y".data])).1.eqOp
      (ScopeSet.ofTokens ["x".data, "z".data]) = true ∧
    ((ScopeSet.ofTokens ["x".data, "y".data, "z".data]).DifferenceUpdate
        (ScopeSet.ofTokens ["y".data])).2.eqOp
      (ScopeSet.ofTokens ["y".data]) = true := by
  refine ⟨differenceUpdate_fst_mem A B, differenceUpdate_snd_mem A B hA, ?_, ?_⟩
  · rw [ScopeSet.eqOp, decide_eq_true_eq]
    apply sorted_mem_eq
      ((ScopeSet.ofTokens ["x".data, "y".data, "z".data]).DifferenceUpdate
        (ScopeSet.ofTokens ["y".data])).1.sorted
      (ScopeSet.ofTokens ["x".data, "z".data]).sorted
    intro t
    rw [differenceUpdate_fst_mem,
      show (ScopeSet.ofTokens ["x".data, "y".data, "z".data]).m_scopes =
        ["x".data, "y".data, "z".data] from by decide,
      show (ScopeSet.ofTokens ["y".data]).m_scopes = ["y".data] from by decide,
      show (ScopeSet.ofTokens ["x".data, "z".data]).m_scopes =
        ["x".data, "z".data] from by decide]
    simp only [List.mem_cons, List.not_mem_nil, or_false]
    constructor
    · rintro ⟨h1 | h1 | h1, h2⟩
      · exact Or.inl h1
      · exact absurd h1 h2
      · exact Or.inr h1
    · rintro (h1 | h1)
      · exact ⟨Or.inl h1, by subst h1; decide⟩
      · exact ⟨Or.inr (Or.inr h1), by subst h1; decide⟩
  · rw [ScopeSet.eqOp, decide_eq_true_eq]
    apply sorted_mem_eq
      ((ScopeSet.ofTokens ["x".data, "y".data, "z".data]).DifferenceUpdate
        (ScopeSet.ofTokens ["y".data])).2.sorted
      (ScopeSet.ofTokens ["y".data]).sorted
    intro t
    rw [differenceUpdate_snd_mem _ _ (by decide),
      show (ScopeSet.ofTokens ["x".data, "y".data, "z".data]).m_scopes =
        ["x".data, "y".data, "z".data] from by decide,
      show (ScopeSet.ofTokens ["y".data]).m_scopes = ["y".data] from by decide]
    simp only [List.mem_cons, List.not_mem_nil, or_false]
    constructor
    · rintro ⟨_, h2⟩
      exact h2
    · intro h1
      exact ⟨Or.inr (Or.inl h1), h1⟩

theorem differenceUpdate_removes_and_returns_witness :
    (ScopeSet.ofTokens ["x".data, "y".data, "z".data]).CanonicalSet ∧
    ((∀ t, t ∈ ((ScopeSet.ofTokens ["x".data, "y".data, "z".data]).DifferenceUpdate
        (ScopeSet.ofTokens ["y".data])).1.m_scopes ↔
      t ∈ (ScopeSet.ofTokens ["x".data, "y".data, "z".data]).m_scopes ∧
      t ∉ (ScopeSet.ofTokens ["y".data]).m_scopes) ∧
    (∀ t, t ∈ ((ScopeSet.ofTokens ["x".data, "y".data, "z".data]).DifferenceUpdate
        (ScopeSet.ofTokens ["y".data])).2.m_scopes ↔
      t ∈ (ScopeSet.ofTokens ["x".data, "y".data, "z".data]).m_scopes ∧
      t ∈ (ScopeSet.ofTokens ["y".data]).m_scopes) ∧
    ((ScopeSet.ofTokens ["x".data, "y".data, "z".data]).DifferenceUpdate
        (ScopeSet.ofTokens ["y".data])).1.eqOp
      (ScopeSet.ofTokens ["x".data, "z".data]) = true ∧
    ((ScopeSet.ofTokens ["x".data, "y".data, "z".data]).DifferenceUpdate
        (ScopeSet.ofTokens ["y".data])).2.eqOp
      (ScopeSet.ofTokens ["y".data]) = true) :=
  ⟨by decide, differenceUpdate_removes_and_returns _ _ (by decide)⟩

/-- C8: `Intersection` returns exactly the common tokens and `Difference`
exactly the tokens of the receiver absent from the argument; both are pure
(in this functional model the operands are untouched by construction). -/
theorem intersection_difference_pure_correct (A B : ScopeSet)
    (hA : A.CanonicalSet) :
    (∀ t, t ∈ (A.Intersection B).m_scopes ↔
      t ∈ A.m_scopes ∧ t ∈ B.m_scopes) ∧
    (∀ t, t ∈ (A.Difference B).m_scopes ↔
      t ∈ A.m_scopes ∧ t ∉ B.m_scopes) := by
  constructor
  · intro t
    have hc : ∀ x ∈ setIntersectionMerge A.m_scopes B.m_scopes,
        SLPGetCanonicalString x = x :=
      fun x hx =>
        hA x ((setIntersectionMerge_sublist A.m_scopes B.m_scopes).subset hx)
    show t ∈ (ScopeSet.ofTokens
        (setIntersectionMerge A.m_scopes B.m_scopes)).m_scopes ↔ _
    rw [mem_ofTokens_of_canonical hc t]
    exact mem_setIntersectionMerge A.m_scopes B.m_scopes A.sorted B.sorted t
  · intro t
    have hc : ∀ x ∈ setDifferenceMerge A.m_scopes B.m_scopes,
        SLPGetCanonicalString x = x :=
      fun x hx =>
        hA x ((setDifferenceMerge_sublist A.m_scopes B.m_scopes).subset hx)
    show t ∈ (ScopeSet.ofTokens
        (setDifferenceMerge A.m_scopes B.m_scopes)).m_scopes ↔ _
    rw [mem_ofTokens_of_canonical hc t]
    exact mem_setDifferenceMerge A.m_scopes B.m_scopes A.sorted B.sorted t

theorem intersection_difference_pure_correct_witness :
    (ScopeSet.ofTokens ["default".data, "east-wing".data]).CanonicalSet ∧
    ((∀ t, t ∈ ((ScopeSet.ofTokens ["default".data, "east-wing".data]).Intersection
        (ScopeSet.ofTokens ["east-wing".data, "west-wing".data])).m_scopes ↔
      t ∈ (ScopeSet.ofTokens ["default".data, "east-wing".data]).m_scopes ∧
      t ∈ (ScopeSet.ofTokens ["east-wing".data, "west-wing".data]).m_scopes) ∧
    (∀ t, t ∈ ((ScopeSet.ofTokens ["default".data, "east-wing".data]).Difference
        (ScopeSet.ofTokens ["east-wing".data, "west-wing".data])).m_scopes ↔
      t ∈ (ScopeSet.ofTokens ["default".data, "east-wing".data]).m_scopes ∧
      t ∉ (ScopeSet.ofTokens ["east-wing".data, "west-wing".data]).m_scopes)) :=
  ⟨by decide, intersection_difference_pure_correct _ _ (by decide)⟩

/-- C10: the three intersection queries agree — `Intersects` is true iff
`IntersectionCount` is positive iff `Intersection` is non-empty, and the
count equals the size of the returned intersection set. -/
theorem intersection_queries_agree (A B : ScopeSet) (hA : A.CanonicalSet) :
    (A.Intersects B = true ↔ 0 < A.IntersectionCount B) ∧
    (A.Intersects B = true ↔ (A.Intersection B).empty = 0) ∧
    A.IntersectionCount B = (A.Intersection B).size := by
  have hIm : (A.Intersection B).m_scopes =
      setIntersectionMerge A.m_scopes B.m_scopes := by
    have hc : ∀ x ∈ setIntersectionMerge A.m_scopes B.m_scopes,
        SLPGetCanonicalString x = x :=
      fun x hx =>
        hA x ((setIntersectionMerge_sublist A.m_scopes B.m_scopes).subset hx)
    have hs : (setIntersectionMerge A.m_scopes B.m_scopes).Sorted (· < ·) :=
      List.Pairwise.sublist (setIntersectionMerge_sublist A.m_scopes B.m_scopes)
        A.sorted
    exact ofTokens_of_canonical hs hc
  have hcount : A.IntersectionCount B =
      (setIntersectionMerge A.m_scopes B.m_scopes).length := by
    rw [ScopeSet.IntersectionCount, ← setIntersectionMerge_length]
  have hiff := intersectsMerge_iff A.m_scopes B.m_scopes A.sorted B.sorted
  have hmem := fun t =>
    mem_setIntersectionMerge A.m_scopes B.m_scopes A.sorted B.sorted t
  have hexists : (∃ t, t ∈ A.m_scopes ∧ t ∈ B.m_scopes) ↔
      setIntersectionMerge A.m_scopes B.m_scopes ≠ [] := by
    constructor
    · rintro ⟨t, h1, h2⟩ hnil
      have hm := (hmem t).2 ⟨h1, h2⟩
      rw [hnil] at hm
      exact List.not_mem_nil t hm
    · intro hne
      rcases List.exists_mem_of_ne_nil _ hne with ⟨t, ht⟩
      exact ⟨t, (hmem t).1 ht⟩
  refine ⟨?_, ?_, ?_⟩
  · rw [hcount, List.length_pos]
    constructor
    · intro h
      exact hexists.1 (hiff.1 h)
    · intro h
      exact hiff.2 (hexists.2 h)
  · by_cases hni : setIntersectionMerge A.m_scopes B.m_scopes = []
    · have hfalse : ¬ A.Intersects B = true :=
        fun h => (hexists.1 (hiff.1 h)) hni
      simp [ScopeSet.empty, hIm, hni, List.isEmpty_iff, hfalse]
    · have htrue : A.Intersects B = true := hiff.2 (hexists.2 hni)
      simp [ScopeSet.empty, hIm, hni, List.isEmpty_iff, htrue]
  · rw [hcount, ScopeSet.size, hIm]

theorem intersection_queries_agree_witness :
    (ScopeSet.ofTokens ["default".data, "east-wing".data]).CanonicalSet ∧
    (((ScopeSet.ofTokens ["default".data, "east-wing".data]).Intersects
        (ScopeSet.ofTokens ["east-wing".data, "west-wing".data]) = true ↔
      0 < (ScopeSet.ofTokens ["default".data, "east-wing".data]).IntersectionCount
        (ScopeSet.ofTokens ["east-wing".data, "west-wing".data])) ∧
    ((ScopeSet.ofTokens ["default".data, "east-wing".data]).Intersects
        (ScopeSet.ofTokens ["east-wing".data, "west-wing".data]) = true ↔
      ((ScopeSet.ofTokens ["default".data, "east-wing".data]).Intersection
        (ScopeSet.ofTokens ["east-wing".data, "west-wing".data])).empty = 0) ∧
    (ScopeSet.ofTokens ["default".data, "east-wing".data]).IntersectionCount
        (ScopeSet.ofTokens ["east-wing".data, "west-wing".data]) =
      ((ScopeSet.ofTokens ["default".data, "east-wing".data]).Intersection
        (ScopeSet.ofTokens ["east-wing".data, "west-wing".data])).size) :=
  ⟨by decide, intersection_queries_agree _ _ (by decide)⟩

/-- C5: the wire round-trip — decoding the escaped wire string of any valid
scope set (tokens canonical and non-empty, commas and backslashes allowed
inside tokens) yields the set back. -/
theorem decode_encode_roundtrip (S : ScopeSet) (h : S.Valid) :
    ScopeSet.decode S.AsEscapedString = Except.ok S :=
  decode_AsEscapedString h

theorem decode_encode_roundtrip_witness :
    (ScopeSet.ofTokens ["a,b".data, "c\\d".data]).Valid ∧
    ScopeSet.decode (ScopeSet.ofTokens ["a,b".data, "c\\d".data]).AsEscapedString =
      Except.ok (ScopeSet.ofTokens ["a,b".data, "c\\d".data]) :=
  ⟨by decide, decode_encode_roundtrip _ (by decide)⟩

/-- C3: whenever a construction entry point (collection construction with the
spec's canonicalizer validation, or wire decoding) meets a token whose
canonical form is empty, the whole construction fails with
`InvalidScopeToken` instead of dropping the token or storing an empty one. -/
theorem construction_rejects_empty_canonical_token
    (ts : List SLPString) (hts : ∃ t ∈ ts, SLPGetCanonicalString t = [])
    (s : SLPString)
    (hok : ∀ p ∈ splitScopes s,
      unescapeToken p ≠ Except.error SLPError.MalformedEscapeSequence)
    (hbad : ∃ p ∈ splitScopes s,
      (unescapeToken p).map SLPGetCanonicalString = Except.ok []) :
    ScopeSet.ofTokensChecked ts = Except.error SLPError.InvalidScopeToken ∧
    ScopeSet.decode s = Except.error SLPError.InvalidScopeToken := by
  constructor
  · rcases hts with ⟨t, ht, he⟩
    rw [ScopeSet.ofTokensChecked, if_neg (fun hall => (hall t ht) he)]
  · rw [ScopeSet.decode, decodeParts_invalid (splitScopes s) hok hbad]

theorem construction_rejects_empty_canonical_token_witness :
    ScopeSet.ofTokensChecked [" ".data] =
      Except.error SLPError.InvalidScopeToken ∧
    ScopeSet.decode (" ,a".data) = Except.error SLPError.InvalidScopeToken :=
  construction_rejects_empty_canonical_token [" ".data] (by decide)
    (" ,a".data) (by decide) (by decide)
